import Mathlib

/-!
Shallow embedding of the watermarking and signing subsystem implemented in
`src/layers/signature.ts` (class `SignatureEngine`), together with proofs of
the specified properties.

Modelling conventions:
* JS strings are modelled as `List Char` (all characters involved are BMP
  scalar values, so UTF-16 code-unit iteration coincides with code-point
  iteration).
* The Node `crypto` primitives (AES-256-GCM, HMAC-SHA256, random IVs) and
  `JSON.stringify`/`JSON.parse` are external library calls, not repository
  code; they are modelled as fields of an `ExternalOps` record that the
  engine carries.  The per-call random IV and the `Date.now()` timestamp are
  explicit parameters of `sign`.
* JS exceptions are modelled with `Except`; a function that cannot throw has
  a plain codomain.
-/

/-- Zero Width Space, the bit-0 code point (`ZW_ZERO` in the source). -/
def ZW_ZERO : Char := Char.ofNat 0x200B

/-- Zero Width Non-Joiner, the bit-1 code point (`ZW_ONE` in the source). -/
def ZW_ONE : Char := Char.ofNat 0x200C

/-- Zero Width Joiner, the start marker (`HEADER` in the source). -/
def HEADER : Char := Char.ofNat 0x200D

/-- JSON values appearing in payload objects.  Payload objects themselves are
association lists with string keys, mirroring plain JS objects. -/
inductive JsonVal where
  | num (n : Int)
  | str (s : List Char)
  | bool (b : Bool)
  | null
deriving DecidableEq, Repr

/-- A JS object, as an insertion-ordered association list. -/
abbrev JsObj := List (String × JsonVal)

/-- Property read `o.k`: first binding wins (keys are unique in objects that
come from JS object literals). -/
def objGet (o : JsObj) (k : String) : Option JsonVal :=
  match o with
  | [] => none
  | (k1, v) :: rest => if k1 = k then some v else objGet rest k

/-- JS object spread `\x7b...o, k: v\x7d`: if `k` is already a key its value is
replaced in place (insertion order preserved), otherwise the binding is
appended at the end.  (JS objects have unique keys, so replacing the first
occurrence is the spread semantics.) -/
def objSet (o : JsObj) (k : String) (v : JsonVal) : JsObj :=
  match o with
  | [] => [(k, v)]
  | (k1, v1) :: rest => if k1 = k then (k, v) :: rest else (k1, v1) :: objSet rest k v

/-- The three hex-encoded components returned by one AES-256-GCM encryption
call (`iv`, `cipher.getAuthTag()`, ciphertext in the source `encrypt`). -/
structure AeadParts where
  ivHex : List Char
  tagHex : List Char
  ctHex : List Char

/-- The external library calls used by `SignatureEngine`, closed over the
engine secret.  `aeadEncrypt` takes the random-IV seed of the call as a
`Nat` so that distinct `sign` calls can be modelled with distinct
randomness. -/
structure ExternalOps where
  aeadEncrypt : Nat → List Char → AeadParts
  aeadDecrypt : List Char → List Char → List Char → Except Unit (List Char)
  hmacHex : List Char → List Char
  stringify : JsObj → List Char
  parse : List Char → Except Unit JsObj

/-- The four operating modes of the engine. -/
inductive Mode where
  | nothing
  | hmac
  | steganography
  | dual
deriving DecidableEq, Repr

/-- The engine state: the validated secret, the configured mode (absent means
the default), and the external crypto/JSON operations. -/
structure Engine where
  secret : List Char
  modeCfg : Option Mode
  ops : ExternalOps

/-- The `mode` getter: `this.config.mode || 'dual'`. -/
def Engine.mode (e : Engine) : Mode := e.modeCfg.getD Mode.dual

/-- Constructor-time error: the secret is shorter than 32 characters. -/
inductive CtorError where
  | keyTooShort
deriving DecidableEq, Repr

/-- The `SignatureEngine` constructor: throws unless the secret is present
and at least 32 characters long (`!config.secret || config.secret.length < 32`). -/
def mkEngine (secret : List Char) (modeCfg : Option Mode) (ops : ExternalOps) :
    Except CtorError Engine :=
  if secret = [] ∨ secret.length < 32 then
    .error .keyTooShort
  else
    .ok ⟨secret, modeCfg, ops⟩

/-! ## Binary helpers (`strToBin`, `binToStr`) -/

/-- Binary digits of `n`, least significant first, via the standard repeated
halving; the first argument is structural fuel (any fuel at least `n`
computes the full digit list). -/
def natToBinRevAux : Nat → Nat → List Char
  | 0, _ => []
  | _, 0 => []
  | fuel + 1, n + 1 =>
    (if (n + 1) % 2 = 1 then '1' else '0') :: natToBinRevAux fuel ((n + 1) / 2)

/-- `n.toString(2)` for a natural number: most significant bit first, and
`"0"` for zero. -/
def natToBin (n : Nat) : List Char :=
  if n = 0 then ['0'] else (natToBinRevAux n n).reverse

/-- `padStart(8, '0')`: left-pad with zeros up to length 8 (no-op on longer
inputs). -/
def padStart8 (s : List Char) : List Char :=
  List.replicate (8 - s.length) '0' ++ s

/-- `strToBin`: each character contributes `charCodeAt(0).toString(2)`
left-padded to 8 digits, all concatenated. -/
def strToBin (text : List Char) : List Char :=
  (text.map (fun c => padStart8 (natToBin c.toNat))).flatten

/-- `parseInt(byte, 2)` restricted to the reachable inputs (strings of `'0'`
and `'1'` characters, as produced by `decodeBits`). -/
def parseBin (byte : List Char) : Nat :=
  byte.foldl (fun a c => 2 * a + (if c = '1' then 1 else 0)) 0

/-- The byte-slicing loop of `binToStr`: successive slices of 8 characters
(the final slice may be shorter when the length is not a multiple of 8, as
with JS `slice`). -/
def chunk8 : List Char → List (List Char)
  | a :: b :: c :: d :: e :: f :: g :: h :: rest => [a, b, c, d, e, f, g, h] :: chunk8 rest
  | [] => []
  | l => [l]

/-- `binToStr`: empty result unless the bit length is a multiple of 8,
otherwise each 8-bit slice becomes `String.fromCharCode(parseInt(slice, 2))`. -/
def binToStr (binary : List Char) : List Char :=
  if binary.length % 8 ≠ 0 then []
  else (chunk8 binary).map (fun byte => Char.ofNat (parseBin byte))

/-! ## Steganography core (`embed`, `decodeBits`) -/

/-- The bit-to-code-point loop of `embed`: `'1'` becomes `ZW_ONE`, everything
else becomes `ZW_ZERO`. -/
def bitsToZW (bits : List Char) : List Char :=
  bits.map (fun bit => if bit = '1' then ZW_ONE else ZW_ZERO)

/-- The character loop of `decodeBits`: rebuilds the bit string, failing on
the first character outside the two-symbol alphabet. -/
def zwToBits : List Char → Option (List Char)
  | [] => some []
  | c :: rest =>
    if c = ZW_ONE then (zwToBits rest).map (fun bs => '1' :: bs)
    else if c = ZW_ZERO then (zwToBits rest).map (fun bs => '0' :: bs)
    else none

/-- `decodeBits`: `null` on a non-alphabet character, otherwise
`binToStr` of the reconstructed bit string (which is itself empty when the
bit length is not a multiple of 8). -/
def decodeBits (zwString : List Char) : Option (List Char) :=
  (zwToBits zwString).map binToStr

/-! ## Encryption block framing (`encrypt`, `decrypt`) -/

/-- `encrypt`: the AEAD call is external; the repository code joins the three
hex components with `:` (format `IV:AuthTag:Encrypted`). -/
def encryptBlock (e : Engine) (iv : Nat) (text : List Char) : List Char :=
  (e.ops.aeadEncrypt iv text).ivHex ++
    ':' :: (e.ops.aeadEncrypt iv text).tagHex ++
    ':' :: (e.ops.aeadEncrypt iv text).ctHex

/-- Errors that `decrypt` can raise: the explicit format check, or any
failure inside the external authenticated decryption. -/
inductive DecryptError where
  | malformed
  | auth
deriving DecidableEq, Repr

/-- Splitting a `List Char` on a separator character, with JS `split`
semantics: the result always has `count + 1` parts and is never empty. -/
def splitOnChar (sep : Char) : List Char → List (List Char)
  | [] => [[]]
  | c :: rest =>
    if c = sep then [] :: splitOnChar sep rest
    else (c :: (splitOnChar sep rest).headD []) :: (splitOnChar sep rest).tail

/-- `decrypt`: destructures the first three `:`-separated fields (extra
fields are silently ignored by the destructuring), throws `Invalid format`
if any of the three is missing or empty, then runs the external
authenticated decryption. -/
def decryptBlock (e : Engine) (text : List Char) : Except DecryptError (List Char) :=
  if (splitOnChar ':' text).getD 0 [] = [] ∨ (splitOnChar ':' text).getD 1 [] = [] ∨
      (splitOnChar ':' text).getD 2 [] = [] then
    .error .malformed
  else
    match e.ops.aeadDecrypt ((splitOnChar ':' text).getD 0 [])
        ((splitOnChar ':' text).getD 1 [])
        ((splitOnChar ':' text).getD 2 []) with
    | .ok pt => .ok pt
    | .error _ => .error .auth

/-! ## The facade: `sign`, `extract`, `verifyHMAC`, `strip` -/

/-- `embed`: start marker followed by the zero-width encoding of the
encrypted block. -/
def embedFrame (e : Engine) (iv : Nat) (text : List Char) : List Char :=
  HEADER :: bitsToZW (strToBin (encryptBlock e iv text))

/-- The result record of `sign`. -/
structure SignResult where
  content : List Char
  signature : Option (List Char)
deriving DecidableEq

/-- `generateHMAC`: the external keyed hash, hex-encoded. -/
def generateHMAC (e : Engine) (text : List Char) : List Char :=
  e.ops.hmacHex text

/-- `sign(content, payload)`: merges the timestamp into the payload, appends
the watermark frame in steganography and dual modes, and signs the final
(already-framed) content in hmac and dual modes.  `iv` is the randomness of
the embedded encryption call and `ts` is `Date.now()`. -/
def sign (e : Engine) (iv ts : Nat) (content : List Char) (payload : JsObj) : SignResult :=
  { content :=
      if e.mode = .steganography ∨ e.mode = .dual then
        content ++ embedFrame e iv (e.ops.stringify (objSet payload "t" (.num ts)))
      else content
    signature :=
      if e.mode = .hmac ∨ e.mode = .dual then
        some (generateHMAC e
          (if e.mode = .steganography ∨ e.mode = .dual then
            content ++ embedFrame e iv (e.ops.stringify (objSet payload "t" (.num ts)))
          else content))
      else none }

/-- UTF-8 encoding of one scalar value, byte by byte (what
`Buffer.from(string)` does per character). -/
def utf8Bytes (c : Char) : List Nat :=
  let n := c.toNat
  if n < 0x80 then [n]
  else if n < 0x800 then [0xC0 + n / 64, 0x80 + n % 64]
  else if n < 0x10000 then [0xE0 + n / 4096, 0x80 + n / 64 % 64, 0x80 + n % 64]
  else [0xF0 + n / 0x40000, 0x80 + n / 4096 % 64, 0x80 + n / 64 % 64, 0x80 + n % 64]

/-- `Buffer.from(text)`: the UTF-8 byte sequence of the string. -/
def toUtf8 (text : List Char) : List Nat :=
  (text.map utf8Bytes).flatten

/-- `verifyHMAC`: recomputes the expected digest and compares with
`crypto.timingSafeEqual`, which compares the two byte buffers in constant
time but THROWS a `RangeError` when their byte lengths differ; there is no
try/catch in the function, so the model's codomain is `Except`. -/
def verifyHMAC (e : Engine) (content signature : List Char) : Except Unit Bool :=
  if (toUtf8 (generateHMAC e content)).length = (toUtf8 signature).length then
    .ok (decide (toUtf8 (generateHMAC e content) = toUtf8 signature))
  else
    .error ()

/-- The result record of `extract`. -/
structure VerificationResult where
  isValid : Bool
  payload : Option JsObj := none
  timestamp : Option JsonVal := none
  error : Option String := none
deriving DecidableEq

/-- The tail of `extract` after the watermark segment has been located:
decode the bits (`null` and the empty string are both falsy in the
source check), decrypt, parse, and collapse every failure into an
`isValid := false` record, as the surrounding try/catch does. -/
def extractTail (e : Engine) (rawHidden : List Char) : VerificationResult :=
  match decodeBits rawHidden with
  | none => { isValid := false, error := some "Corrupted or invalid signature bits" }
  | some [] => { isValid := false, error := some "Corrupted or invalid signature bits" }
  | some encryptedHex =>
    match decryptBlock e encryptedHex with
    | .error _ => { isValid := false, error := some "Decryption failed or forged signature" }
    | .ok jsonStr =>
      match e.ops.parse jsonStr with
      | .error _ => { isValid := false, error := some "Decryption failed or forged signature" }
      | .ok data =>
        { isValid := true, payload := some data, timestamp := objGet data "t" }

/-- `extract`: splits on the marker; fewer than two parts is the typed
`no watermark` outcome; otherwise the last part is the candidate watermark.
Total by construction, matching the source's all-enclosing try/catch. -/
def extract (e : Engine) (content : List Char) : VerificationResult :=
  if (splitOnChar HEADER content).length < 2 then
    { isValid := false, error := some "No signature watermark detected" }
  else
    extractTail e ((splitOnChar HEADER content).getLastD [])

/-- `lastIndexOf` for a character, `none` standing for JS `-1`. -/
def lastIndexOf (c : Char) : List Char → Option Nat
  | [] => none
  | x :: xs =>
    match lastIndexOf c xs with
    | some i => some (i + 1)
    | none => if x = c then some 0 else none

/-- `strip`: finds the last marker; the regex test accepts a non-empty
all-zero-width tail, and the fallback loop accepts any (possibly empty)
all-zero-width tail; in both cases the marker and tail are removed,
otherwise the content is returned unchanged. -/
def strip (content : List Char) : List Char :=
  match lastIndexOf HEADER content with
  | none => content
  | some i =>
    if content.drop (i + 1) ≠ [] ∧
        (content.drop (i + 1)).all (fun c => c = ZW_ZERO || c = ZW_ONE) then
      content.take i
    else if (content.drop (i + 1)).all (fun c => c = ZW_ZERO || c = ZW_ONE) then
      content.take i
    else content

/-! ## Helper lemmas: splitting and searching -/

theorem zwZero_ne_zwOne : ZW_ZERO ≠ ZW_ONE := by decide

theorem header_ne_zwZero : HEADER ≠ ZW_ZERO := by decide

theorem header_ne_zwOne : HEADER ≠ ZW_ONE := by decide

theorem zero_ne_one_char : ('0' : Char) ≠ '1' := by decide

theorem splitOnChar_ne_nil (sep : Char) (l : List Char) : splitOnChar sep l ≠ [] := by
  cases l with
  | nil => simp [splitOnChar]
  | cons c rest =>
    simp only [splitOnChar]
    split <;> simp

theorem splitOnChar_not_mem (sep : Char) (l : List Char) (h : sep ∉ l) :
    splitOnChar sep l = [l] := by
  induction l with
  | nil => rfl
  | cons c rest ih =>
    simp only [List.mem_cons, not_or] at h
    simp only [splitOnChar, ih h.2]
    rw [if_neg (fun hc => h.1 hc.symm)]
    rfl

theorem splitOnChar_append_cons (sep : Char) (xs ys : List Char) :
    splitOnChar sep (xs ++ sep :: ys) = splitOnChar sep xs ++ splitOnChar sep ys := by
  induction xs with
  | nil => simp [splitOnChar]
  | cons c xs ih =>
    simp only [List.cons_append, splitOnChar, List.append_eq, ih]
    by_cases hc : c = sep
    · simp [hc]
    · cases h : splitOnChar sep xs with
      | nil => exact absurd h (splitOnChar_ne_nil sep xs)
      | cons hd tl => simp [hc, h]

theorem lastIndexOf_not_mem (c : Char) (l : List Char) (h : c ∉ l) :
    lastIndexOf c l = none := by
  induction l with
  | nil => rfl
  | cons x xs ih =>
    simp only [List.mem_cons, not_or] at h
    simp only [lastIndexOf, ih h.2]
    rw [if_neg (fun hx => h.1 hx.symm)]

theorem lastIndexOf_append_cons (c : Char) (xs ys : List Char) (h : c ∉ ys) :
    lastIndexOf c (xs ++ c :: ys) = some xs.length := by
  induction xs with
  | nil =>
    simp only [List.nil_append, lastIndexOf, lastIndexOf_not_mem c ys h, if_pos rfl]
    rfl
  | cons x xs ih =>
    simp only [List.cons_append, lastIndexOf, List.append_eq, ih]
    rfl

/-! ## Helper lemmas: the zero-width alphabet -/

theorem bitsToZW_mem (bits : List Char) :
    ∀ c ∈ bitsToZW bits, c = ZW_ZERO ∨ c = ZW_ONE := by
  intro c hc
  rcases List.mem_map.mp hc with ⟨b, _, rfl⟩
  by_cases hb : b = '1'
  · right; simp [hb]
  · left; simp [hb]

theorem header_not_mem_bitsToZW (bits : List Char) : HEADER ∉ bitsToZW bits := by
  intro h
  rcases bitsToZW_mem bits HEADER h with h0 | h1
  · exact header_ne_zwZero h0
  · exact header_ne_zwOne h1

theorem zwToBits_bitsToZW (bits : List Char) (h : ∀ c ∈ bits, c = '0' ∨ c = '1') :
    zwToBits (bitsToZW bits) = some bits := by
  induction bits with
  | nil => rfl
  | cons b rest ih =>
    have hih := ih (fun c hc => h c (List.mem_cons_of_mem b hc))
    simp only [bitsToZW, List.map_cons] at hih ⊢
    rcases h b (List.mem_cons_self b rest) with hb | hb <;> subst hb
    · simp only [if_neg zero_ne_one_char, zwToBits, if_neg zwZero_ne_zwOne, if_pos rfl,
        hih, Option.map_some]
      simp
    · simp only [if_pos rfl, zwToBits, hih, Option.map_some]
      simp

/-! ## Helper lemmas: 8-bit encoding round trip -/

set_option maxRecDepth 4000 in
theorem enc8_spec :
    ∀ n, n < 256 →
      (padStart8 (natToBin n)).length = 8 ∧ parseBin (padStart8 (natToBin n)) = n := by
  decide

theorem chunk8_append (b rest : List Char) (hb : b.length = 8) :
    chunk8 (b ++ rest) = b :: chunk8 rest := by
  rcases b with _ | ⟨a1, _ | ⟨a2, _ | ⟨a3, _ | ⟨a4, _ | ⟨a5, _ | ⟨a6, _ | ⟨a7, _ | ⟨a8, _ | ⟨a9, tl⟩⟩⟩⟩⟩⟩⟩⟩⟩ <;>
    simp only [List.length_cons, List.length_nil] at hb <;> try omega
  rfl

theorem strToBin_cons (c : Char) (rest : List Char) :
    strToBin (c :: rest) = padStart8 (natToBin c.toNat) ++ strToBin rest := by
  simp [strToBin]

theorem natToBinRevAux_bits (fuel : Nat) :
    ∀ n, ∀ c ∈ natToBinRevAux fuel n, c = '0' ∨ c = '1' := by
  induction fuel with
  | zero =>
    intro n c hc
    simp [natToBinRevAux] at hc
  | succ fuel ih =>
    intro n c hc
    cases n with
    | zero => simp [natToBinRevAux] at hc
    | succ m =>
      simp only [natToBinRevAux, List.mem_cons] at hc
      rcases hc with hc | hc
      · split at hc
        · exact Or.inr hc
        · exact Or.inl hc
      · exact ih _ c hc

theorem natToBin_bits (n : Nat) : ∀ c ∈ natToBin n, c = '0' ∨ c = '1' := by
  intro c hc
  unfold natToBin at hc
  split at hc
  · exact Or.inl (List.mem_singleton.mp hc)
  · exact natToBinRevAux_bits n n c (List.mem_reverse.mp hc)

theorem strToBin_bits (text : List Char) : ∀ c ∈ strToBin text, c = '0' ∨ c = '1' := by
  intro c hc
  unfold strToBin at hc
  rcases List.mem_flatten.mp hc with ⟨l, hl, hcl⟩
  rcases List.mem_map.mp hl with ⟨x, _, rfl⟩
  unfold padStart8 at hcl
  rcases List.mem_append.mp hcl with h | h
  · exact Or.inl (List.eq_of_mem_replicate h)
  · exact natToBin_bits x.toNat c h

theorem strToBin_length (text : List Char) (h : ∀ c ∈ text, c.toNat < 256) :
    (strToBin text).length = 8 * text.length := by
  induction text with
  | nil => rfl
  | cons c rest ih =>
    rw [strToBin_cons, List.length_append,
      (enc8_spec c.toNat (h c (List.mem_cons_self c rest))).1,
      ih (fun x hx => h x (List.mem_cons_of_mem c hx)), List.length_cons]
    ring

theorem chunk8_map_strToBin (text : List Char) (h : ∀ c ∈ text, c.toNat < 256) :
    (chunk8 (strToBin text)).map (fun byte => Char.ofNat (parseBin byte)) = text := by
  induction text with
  | nil => rfl
  | cons c rest ih =>
    rw [strToBin_cons,
      chunk8_append _ _ (enc8_spec c.toNat (h c (List.mem_cons_self c rest))).1,
      List.map_cons, (enc8_spec c.toNat (h c (List.mem_cons_self c rest))).2,
      Char.ofNat_toNat, ih (fun x hx => h x (List.mem_cons_of_mem c hx))]

theorem binToStr_strToBin (text : List Char) (h : ∀ c ∈ text, c.toNat < 256) :
    binToStr (strToBin text) = text := by
  unfold binToStr
  rw [strToBin_length text h]
  simp [Nat.mul_mod_right, chunk8_map_strToBin text h]

/-! ## Helper lemmas: object merge -/

theorem objGet_objSet (o : JsObj) (k : String) (v : JsonVal) :
    objGet (objSet o k v) k = some v := by
  induction o with
  | nil => simp [objSet, objGet]
  | cons p rest ih =>
    obtain ⟨k1, v1⟩ := p
    by_cases hp : k1 = k
    · simp [objSet, hp, objGet]
    · simp [objSet, hp, objGet, ih]

theorem objSet_length_of_mem (o : JsObj) (k : String) (v : JsonVal)
    (h : (objGet o k).isSome) : (objSet o k v).length = o.length := by
  induction o with
  | nil => simp [objGet] at h
  | cons p rest ih =>
    obtain ⟨k1, v1⟩ := p
    by_cases hp : k1 = k
    · simp [objSet, hp]
    · have h1 : (objGet rest k).isSome := by
        simpa [objGet, hp] using h
      simp [objSet, hp, ih h1]

/-! ## Helper lemmas: locating and decoding the frame -/

theorem extract_append_frame (e : Engine) (content zw : List Char)
    (hzw : HEADER ∉ zw) :
    extract e (content ++ HEADER :: zw) = extractTail e zw := by
  unfold extract
  rw [splitOnChar_append_cons, splitOnChar_not_mem HEADER zw hzw]
  have hpos : 0 < (splitOnChar HEADER content).length :=
    List.length_pos.mpr (splitOnChar_ne_nil HEADER content)
  rw [if_neg (by rw [List.length_append]; simp; omega), List.getLastD_concat]

theorem splitOnChar_encryptBlock (e : Engine) (iv : Nat) (pt : List Char)
    (civ : ':' ∉ (e.ops.aeadEncrypt iv pt).ivHex)
    (ctag : ':' ∉ (e.ops.aeadEncrypt iv pt).tagHex)
    (cct : ':' ∉ (e.ops.aeadEncrypt iv pt).ctHex) :
    splitOnChar ':' (encryptBlock e iv pt) =
      [(e.ops.aeadEncrypt iv pt).ivHex, (e.ops.aeadEncrypt iv pt).tagHex,
        (e.ops.aeadEncrypt iv pt).ctHex] := by
  unfold encryptBlock
  rw [splitOnChar_append_cons, splitOnChar_append_cons,
    splitOnChar_not_mem _ _ civ, splitOnChar_not_mem _ _ ctag, splitOnChar_not_mem _ _ cct]
  rfl

theorem decryptBlock_encryptBlock (e : Engine) (iv : Nat) (pt : List Char)
    (hiv : (e.ops.aeadEncrypt iv pt).ivHex ≠ [])
    (htag : (e.ops.aeadEncrypt iv pt).tagHex ≠ [])
    (hct : (e.ops.aeadEncrypt iv pt).ctHex ≠ [])
    (civ : ':' ∉ (e.ops.aeadEncrypt iv pt).ivHex)
    (ctag : ':' ∉ (e.ops.aeadEncrypt iv pt).tagHex)
    (cct : ':' ∉ (e.ops.aeadEncrypt iv pt).ctHex)
    (hdec : e.ops.aeadDecrypt (e.ops.aeadEncrypt iv pt).ivHex
      (e.ops.aeadEncrypt iv pt).tagHex (e.ops.aeadEncrypt iv pt).ctHex = .ok pt) :
    decryptBlock e (encryptBlock e iv pt) = .ok pt := by
  unfold decryptBlock
  rw [splitOnChar_encryptBlock e iv pt civ ctag cct]
  simp only [List.getD_cons_zero, List.getD_cons_succ]
  rw [if_neg (by simp [hiv, htag, hct]), hdec]

theorem encryptBlock_chars (e : Engine) (iv : Nat) (pt : List Char)
    (h1 : ∀ c ∈ (e.ops.aeadEncrypt iv pt).ivHex, c.toNat < 256)
    (h2 : ∀ c ∈ (e.ops.aeadEncrypt iv pt).tagHex, c.toNat < 256)
    (h3 : ∀ c ∈ (e.ops.aeadEncrypt iv pt).ctHex, c.toNat < 256) :
    ∀ c ∈ encryptBlock e iv pt, c.toNat < 256 := by
  intro c hc
  simp only [encryptBlock, List.mem_append, List.mem_cons] at hc
  rcases hc with (h | h | h) | (h | h)
  · exact h1 c h
  · subst h; decide
  · exact h2 c h
  · subst h; decide
  · exact h3 c h

theorem encryptBlock_cons (e : Engine) (iv : Nat) (pt : List Char) :
    ∃ c cs, encryptBlock e iv pt = c :: cs := by
  unfold encryptBlock
  generalize (e.ops.aeadEncrypt iv pt).ivHex = l
  cases l with
  | nil => exact ⟨':', _, rfl⟩
  | cons a as => exact ⟨a, _, rfl⟩

theorem extractTail_decodes (e : Engine) (raw blk : List Char) (c : Char) (cs : List Char)
    (h : decodeBits raw = some blk) (hblk : blk = c :: cs) :
    extractTail e raw =
      (match decryptBlock e blk with
      | .error _ => { isValid := false, error := some "Decryption failed or forged signature" }
      | .ok jsonStr =>
        match e.ops.parse jsonStr with
        | .error _ => { isValid := false, error := some "Decryption failed or forged signature" }
        | .ok data =>
          { isValid := true, payload := some data, timestamp := objGet data "t" }) := by
  unfold extractTail
  rw [h, hblk]

/-- The combined well-behavedness of the external primitives on one specific
payload object and IV: the AEAD components are non-empty, colon-free,
8-bit-clean hex, decryption inverts encryption on them, and JSON parsing
inverts serialization on the object. -/
def RoundTripOK (e : Engine) (iv : Nat) (data : JsObj) : Prop :=
  (e.ops.aeadEncrypt iv (e.ops.stringify data)).ivHex ≠ [] ∧
  (e.ops.aeadEncrypt iv (e.ops.stringify data)).tagHex ≠ [] ∧
  (e.ops.aeadEncrypt iv (e.ops.stringify data)).ctHex ≠ [] ∧
  ':' ∉ (e.ops.aeadEncrypt iv (e.ops.stringify data)).ivHex ∧
  ':' ∉ (e.ops.aeadEncrypt iv (e.ops.stringify data)).tagHex ∧
  ':' ∉ (e.ops.aeadEncrypt iv (e.ops.stringify data)).ctHex ∧
  (∀ c ∈ (e.ops.aeadEncrypt iv (e.ops.stringify data)).ivHex, c.toNat < 256) ∧
  (∀ c ∈ (e.ops.aeadEncrypt iv (e.ops.stringify data)).tagHex, c.toNat < 256) ∧
  (∀ c ∈ (e.ops.aeadEncrypt iv (e.ops.stringify data)).ctHex, c.toNat < 256) ∧
  e.ops.aeadDecrypt (e.ops.aeadEncrypt iv (e.ops.stringify data)).ivHex
    (e.ops.aeadEncrypt iv (e.ops.stringify data)).tagHex
    (e.ops.aeadEncrypt iv (e.ops.stringify data)).ctHex = .ok (e.ops.stringify data) ∧
  e.ops.parse (e.ops.stringify data) = .ok data

theorem extractTail_of_roundtrip (e : Engine) (iv : Nat) (data : JsObj)
    (h : RoundTripOK e iv data) :
    extractTail e (bitsToZW (strToBin (encryptBlock e iv (e.ops.stringify data)))) =
      { isValid := true, payload := some data, timestamp := objGet data "t" } := by
  obtain ⟨hiv, htag, hct, civ, ctag, cct, biv, btag, bct, hdec, hparse⟩ := h
  have h256 := encryptBlock_chars e iv (e.ops.stringify data) biv btag bct
  have hdecode : decodeBits (bitsToZW (strToBin (encryptBlock e iv (e.ops.stringify data)))) =
      some (encryptBlock e iv (e.ops.stringify data)) := by
    unfold decodeBits
    rw [zwToBits_bitsToZW _ (strToBin_bits _), Option.map_some',
      binToStr_strToBin _ h256]
  have hdecrypt := decryptBlock_encryptBlock e iv (e.ops.stringify data)
    hiv htag hct civ ctag cct hdec
  obtain ⟨c, cs, hcons⟩ := encryptBlock_cons e iv (e.ops.stringify data)
  rw [extractTail_decodes e _ _ c cs hdecode hcons]
  simp only [hdecrypt, hparse]

/-! ## Unfolding lemmas for `sign` -/

theorem sign_content_stego (e : Engine) (iv ts : Nat) (content : List Char) (payload : JsObj)
    (hmode : e.mode = .steganography ∨ e.mode = .dual) :
    (sign e iv ts content payload).content =
      content ++ HEADER :: bitsToZW (strToBin (encryptBlock e iv
        (e.ops.stringify (objSet payload "t" (.num ts))))) := by
  simp only [sign, embedFrame, if_pos hmode]

theorem verifyHMAC_self (e : Engine) (content : List Char) :
    verifyHMAC e content (generateHMAC e content) = .ok true := by
  unfold verifyHMAC
  rw [if_pos rfl]
  simp

/-! ## Concrete engines used by the witnesses -/

/-- A 32-character secret for the concrete engines. -/
def secret32 : List Char := "0123456789abcdef0123456789abcdef".data

/-- Concrete external operations that are well behaved on the single object
`d`: encryption returns a fixed colon-free hex-like triple, decryption and
JSON parsing are its partial inverses. -/
def toyOps (d : JsObj) : ExternalOps where
  aeadEncrypt := fun _ _ => ⟨['a'], ['b'], ['c']⟩
  aeadDecrypt := fun ivHex tagHex ctHex =>
    if ivHex = ['a'] ∧ tagHex = ['b'] ∧ ctHex = ['c'] then .ok ['J'] else .error ()
  hmacHex := fun _ => List.replicate 64 '0'
  stringify := fun _ => ['J']
  parse := fun s => if s = ['J'] then .ok d else .error ()

theorem toyOps_roundtrip (d : JsObj) (secret : List Char) (m : Option Mode) (iv : Nat) :
    RoundTripOK ⟨secret, m, toyOps d⟩ iv d := by
  unfold RoundTripOK
  refine ⟨?_, ?_, ?_, ?_, ?_, ?_, ?_, ?_, ?_, ?_, ?_⟩
  · show (['a'] : List Char) ≠ []
    decide
  · show (['b'] : List Char) ≠ []
    decide
  · show (['c'] : List Char) ≠ []
    decide
  · show ':' ∉ (['a'] : List Char)
    decide
  · show ':' ∉ (['b'] : List Char)
    decide
  · show ':' ∉ (['c'] : List Char)
    decide
  · show ∀ c ∈ (['a'] : List Char), c.toNat < 256
    decide
  · show ∀ c ∈ (['b'] : List Char), c.toNat < 256
    decide
  · show ∀ c ∈ (['c'] : List Char), c.toNat < 256
    decide
  · rfl
  · rfl

def dataC1 : JsObj := [("u", JsonVal.num 1), ("t", JsonVal.num 7)]

def engC1 : Engine := ⟨secret32, some Mode.steganography, toyOps dataC1⟩

def engDual : Engine := ⟨secret32, some Mode.dual, toyOps dataC1⟩

/-! ## The claims -/

/-- C1: for every content, payload, and 32+ char secret, in mode
steganography or dual, extracting from the signed content yields a valid
result whose payload is exactly the payload merged with the sign-time
timestamp field `t`, provided the external AEAD and JSON primitives
round-trip on that data (which the real library calls do). -/
theorem sign_extract_roundtrip (e : Engine) (iv ts : Nat) (content : List Char)
    (payload : JsObj) (hmode : e.mode = .steganography ∨ e.mode = .dual)
    (h : RoundTripOK e iv (objSet payload "t" (.num ts))) :
    extract e ((sign e iv ts content payload).content) =
      { isValid := true, payload := some (objSet payload "t" (.num ts)),
        timestamp := some (.num ts) } := by
  rw [sign_content_stego e iv ts content payload hmode,
    extract_append_frame e _ _ (header_not_mem_bitsToZW _),
    extractTail_of_roundtrip e iv _ h, objGet_objSet]

/-- Witness for C1 at a concrete engine, content, payload and timestamp. -/
theorem sign_extract_roundtrip_witness :
    extract engC1 ((sign engC1 0 7 "Hi".data [("u", JsonVal.num 1)]).content) =
      { isValid := true, payload := some dataC1, timestamp := some (JsonVal.num 7) } :=
  sign_extract_roundtrip engC1 0 7 "Hi".data [("u", JsonVal.num 1)] (Or.inl rfl)
    (toyOps_roundtrip dataC1 secret32 (some Mode.steganography) 0)

theorem strip_append_frame (content zw : List Char)
    (hzw : ∀ c ∈ zw, c = ZW_ZERO ∨ c = ZW_ONE) :
    strip (content ++ HEADER :: zw) = content := by
  have hnot : HEADER ∉ zw := by
    intro h
    rcases hzw HEADER h with h0 | h1
    · exact header_ne_zwZero h0
    · exact header_ne_zwOne h1
  have hdrop : (content ++ HEADER :: zw).drop (content.length + 1) = zw := by
    have h1 : content ++ HEADER :: zw = (content ++ [HEADER]) ++ zw := by simp
    have h2 : content.length + 1 = (content ++ [HEADER]).length := by simp
    rw [h1, h2]
    exact List.drop_left _ _
  have htake : (content ++ HEADER :: zw).take content.length = content :=
    List.take_left content (HEADER :: zw)
  have hall : zw.all (fun c => c = ZW_ZERO || c = ZW_ONE) = true := by
    rw [List.all_eq_true]
    intro c hc
    rcases hzw c hc with h | h <;> simp [h]
  unfold strip
  simp only [lastIndexOf_append_cons HEADER content zw hnot, hdrop, htake, hall]
  by_cases hne : zw = []
  · subst hne
    simp
  · simp [hne]

/-- C3: stripping stego-signed content restores the original text exactly,
for every original content (also one that itself contains marker or bit
code points, since stripping searches from the last marker and the
appended run contains none). -/
theorem strip_sign (e : Engine) (iv ts : Nat) (content : List Char) (payload : JsObj)
    (hmode : e.mode = .steganography ∨ e.mode = .dual) :
    strip ((sign e iv ts content payload).content) = content := by
  rw [sign_content_stego e iv ts content payload hmode]
  exact strip_append_frame content _ (bitsToZW_mem _)

/-- Witness for C3 at a concrete engine and content. -/
theorem strip_sign_witness :
    strip ((sign engC1 0 7 "Hi".data [("u", JsonVal.num 1)]).content) = "Hi".data :=
  strip_sign engC1 0 7 "Hi".data [("u", JsonVal.num 1)] (Or.inl rfl)

/-- C4: in hmac or dual mode the returned detached signature verifies
against the returned content; in dual mode the content is the framed text
(original plus watermark frame), so the signature is computed over the
already-framed content, not the bare original. -/
theorem sign_verify_hmac (e : Engine) (iv ts : Nat) (content : List Char) (payload : JsObj)
    (hmode : e.mode = .hmac ∨ e.mode = .dual) :
    (sign e iv ts content payload).signature =
      some (generateHMAC e ((sign e iv ts content payload).content)) ∧
    (∀ sig, (sign e iv ts content payload).signature = some sig →
      verifyHMAC e ((sign e iv ts content payload).content) sig = .ok true) ∧
    (e.mode = .dual →
      (sign e iv ts content payload).content =
        content ++ HEADER :: bitsToZW (strToBin (encryptBlock e iv
          (e.ops.stringify (objSet payload "t" (.num ts)))))) := by
  refine ⟨?_, ?_, ?_⟩
  · simp only [sign, if_pos hmode]
  · intro sig hsig
    simp only [sign, if_pos hmode, Option.some.injEq] at hsig
    simp only [sign]
    rw [← hsig]
    exact verifyHMAC_self e _
  · intro hdual
    exact sign_content_stego e iv ts content payload (Or.inr hdual)

/-- Witness for C4 at a concrete dual-mode engine. -/
theorem sign_verify_hmac_witness :
    verifyHMAC engDual ((sign engDual 0 7 "Hi".data []).content)
      (generateHMAC engDual ((sign engDual 0 7 "Hi".data []).content)) = .ok true := by
  have h := sign_verify_hmac engDual 0 7 "Hi".data [] (Or.inr rfl)
  exact h.2.1 _ h.1

theorem extractTail_none (e : Engine) (raw : List Char)
    (h : decodeBits raw = none) :
    extractTail e raw =
      { isValid := false, error := some "Corrupted or invalid signature bits" } := by
  unfold extractTail
  rw [h]

theorem extractTail_some_nil (e : Engine) (raw : List Char)
    (h : decodeBits raw = some []) :
    extractTail e raw =
      { isValid := false, error := some "Corrupted or invalid signature bits" } := by
  unfold extractTail
  rw [h]

theorem extractTail_shape (e : Engine) (raw : List Char) :
    ((extractTail e raw).isValid = true ∧ (extractTail e raw).error = none ∧
      (∃ d, (extractTail e raw).payload = some d)) ∨
    ((extractTail e raw).isValid = false ∧ (extractTail e raw).payload = none ∧
      ((extractTail e raw).error = some "Corrupted or invalid signature bits" ∨
       (extractTail e raw).error = some "Decryption failed or forged signature")) := by
  rcases hdb : decodeBits raw with _ | ⟨_ | ⟨c, cs⟩⟩
  · right
    rw [extractTail_none e raw hdb]
    exact ⟨rfl, rfl, Or.inl rfl⟩
  · right
    rw [extractTail_some_nil e raw hdb]
    exact ⟨rfl, rfl, Or.inl rfl⟩
  · rw [extractTail_decodes e raw (c :: cs) c cs hdb rfl]
    rcases hdc : decryptBlock e (c :: cs) with u | pt
    · right
      simp [hdc]
    · rcases hp : e.ops.parse pt with u2 | dta
      · right
        simp [hdc, hp]
      · left
        simp [hdc, hp]

theorem extract_shape (e : Engine) (content : List Char) :
    ((extract e content).isValid = true ∧ (extract e content).error = none ∧
      (∃ d, (extract e content).payload = some d)) ∨
    ((extract e content).isValid = false ∧ (extract e content).payload = none ∧
      ((extract e content).error = some "No signature watermark detected" ∨
       (extract e content).error = some "Corrupted or invalid signature bits" ∨
       (extract e content).error = some "Decryption failed or forged signature")) := by
  unfold extract
  by_cases h : (splitOnChar HEADER content).length < 2
  · rw [if_pos h]
    right
    exact ⟨rfl, rfl, Or.inl rfl⟩
  · rw [if_neg h]
    rcases extractTail_shape e ((splitOnChar HEADER content).getLastD []) with hok | hbad
    · exact Or.inl hok
    · exact Or.inr ⟨hbad.1, hbad.2.1, Or.inr hbad.2.2⟩

/-- C5: extract never throws (its codomain is a plain result record and every
failure path ends in a record, matching the all-enclosing try/catch): text
with no marker code point yields the typed no-watermark invalid result, and
every other internal failure (corrupt bits, malformed block, failed
authentication, JSON parse failure) also yields an isValid-false record
carrying one of the internal error messages and no payload. -/
theorem extract_total_on_untrusted (e : Engine) (content : List Char) :
    (HEADER ∉ content →
      extract e content =
        { isValid := false, error := some "No signature watermark detected" }) ∧
    ((extract e content).isValid = false →
      (extract e content).payload = none ∧
      ((extract e content).error = some "No signature watermark detected" ∨
       (extract e content).error = some "Corrupted or invalid signature bits" ∨
       (extract e content).error = some "Decryption failed or forged signature")) := by
  constructor
  · intro hn
    unfold extract
    rw [splitOnChar_not_mem HEADER content hn]
    rfl
  · intro hinv
    rcases extract_shape e content with hok | hbad
    · rw [hok.1] at hinv
      exact Bool.noConfusion hinv
    · exact ⟨hbad.2.1, hbad.2.2⟩

/-- Witness for C5: plain marker-free text yields the no-watermark result. -/
theorem extract_total_on_untrusted_witness :
    extract engDual "plain text, no watermark".data =
      { isValid := false, error := some "No signature watermark detected" } :=
  (extract_total_on_untrusted engDual "plain text, no watermark".data).1 (by decide)

/-- C2 (code-bug evidence): verifyHMAC recomputes the 64-character hex
digest and hands both strings to crypto.timingSafeEqual with no try/catch;
when the signature's byte length differs from 64, timingSafeEqual throws a
RangeError, so the call throws instead of returning false.  A same-length
signature — even malformed hex — is compared without throwing and yields
false. -/
theorem verifyHMAC_length_mismatch_throws :
    verifyHMAC engDual "Hello".data "abc".data = .error () ∧
    verifyHMAC engDual "Hello".data (List.replicate 64 'z') = .ok false := by
  constructor
  · rfl
  · rfl

/-- C7: construction throws the key-too-short error for secrets shorter
than 32 characters and succeeds at exactly 32 characters, storing the
configuration unchanged; the check lives only in the constructor — extract,
like every later call, can only produce its three scanning error messages,
never a key-length error. -/
theorem mkEngine_key_validation (secret : List Char) (modeCfg : Option Mode)
    (ops : ExternalOps) :
    (secret.length < 32 → mkEngine secret modeCfg ops = .error .keyTooShort) ∧
    (secret.length = 32 → mkEngine secret modeCfg ops = .ok ⟨secret, modeCfg, ops⟩) ∧
    (∀ (e : Engine) (content : List Char),
      (extract e content).error ≠
        some "Signature secret must be at least 32 characters long.") := by
  refine ⟨?_, ?_, ?_⟩
  · intro h
    unfold mkEngine
    rw [if_pos (Or.inr h)]
  · intro h
    unfold mkEngine
    rw [if_neg (by
      rintro (h0 | h0)
      · rw [h0] at h
        simp at h
      · omega)]
  · intro e content
    rcases extract_shape e content with hok | hbad
    · rw [hok.2.1]
      decide
    · rcases hbad.2.2 with h1 | h1 | h1 <;> rw [h1] <;> decide

/-- Witness for C7: a 31-character secret is rejected with the key error, a
32-character secret is accepted. -/
theorem mkEngine_key_validation_witness :
    mkEngine "0123456789012345678901234567890".data (some Mode.dual) (toyOps dataC1) =
      .error .keyTooShort ∧
    mkEngine secret32 (some Mode.dual) (toyOps dataC1) =
      .ok ⟨secret32, some Mode.dual, toyOps dataC1⟩ :=
  ⟨(mkEngine_key_validation _ _ _).1 (by decide),
   (mkEngine_key_validation _ _ _).2.1 (by decide)⟩

theorem getD_three_nonempty (l : List (List Char)) :
    (l.getD 0 [] = [] ∨ l.getD 1 [] = [] ∨ l.getD 2 [] = []) ↔
      ¬ (3 ≤ l.length ∧ [] ∉ l.take 3) := by
  rcases l with _ | ⟨a, _ | ⟨b, _ | ⟨c, rest⟩⟩⟩
  · simp
  · simp [List.getD_cons_zero, List.getD_cons_succ]
  · simp [List.getD_cons_zero, List.getD_cons_succ]
  · constructor
    · intro h hcontra
      rcases hcontra with ⟨_, hmem⟩
      simp only [List.getD_cons_zero, List.getD_cons_succ] at h
      apply hmem
      simp only [List.take_succ_cons, List.take_zero, List.mem_cons, List.not_mem_nil,
        or_false]
      rcases h with h | h | h
      · exact Or.inl h.symm
      · exact Or.inr (Or.inl h.symm)
      · exact Or.inr (Or.inr h.symm)
    · intro h
      by_contra hno
      apply h
      refine ⟨by simp only [List.length_cons]; omega, ?_⟩
      intro hmem
      simp only [List.take_succ_cons, List.take_zero, List.mem_cons, List.not_mem_nil,
        or_false] at hmem
      simp only [List.getD_cons_zero, List.getD_cons_succ, not_or] at hno
      rcases hmem with h1 | h1 | h1
      · exact hno.1 h1.symm
      · exact hno.2.1 h1.symm
      · exact hno.2.2 h1.symm

/-- C6 (amended): decrypt raises the malformed-block error exactly when one
of the FIRST THREE colon-separated fields is missing or empty; a block with
more than three fields is not rejected by the format check — the
destructuring silently ignores the extra fields and decryption proceeds. -/
theorem decryptBlock_malformed_iff (e : Engine) (text : List Char) :
    decryptBlock e text = .error .malformed ↔
      ¬ (3 ≤ (splitOnChar ':' text).length ∧ [] ∉ (splitOnChar ':' text).take 3) := by
  rw [← getD_three_nonempty]
  unfold decryptBlock
  by_cases h : (splitOnChar ':' text).getD 0 [] = [] ∨
      (splitOnChar ':' text).getD 1 [] = [] ∨ (splitOnChar ':' text).getD 2 [] = []
  · rw [if_pos h]
    exact iff_of_true rfl h
  · rw [if_neg h]
    constructor
    · intro hc
      rcases hd : e.ops.aeadDecrypt ((splitOnChar ':' text).getD 0 [])
          ((splitOnChar ':' text).getD 1 []) ((splitOnChar ':' text).getD 2 []) with u | pt <;>
        rw [hd] at hc <;> simp at hc
    · intro hc
      exact absurd hc h

/-- C6 counterexample: a block with four non-empty colon-separated fields
passes the format check — it is not rejected as malformed (with the
concrete toy AEAD it even decrypts successfully). -/
theorem decryptBlock_four_fields_not_malformed :
    (splitOnChar ':' "a:b:c:d".data).length = 4 ∧
    decryptBlock engDual "a:b:c:d".data ≠ .error .malformed := by
  refine ⟨rfl, ?_⟩
  intro hc
  rw [show decryptBlock engDual ("a:b:c:d".data) = Except.ok ['J'] from rfl] at hc
  exact Except.noConfusion hc

theorem bitsToZW_dropLast (bs : List Char) :
    (bitsToZW bs).dropLast = bitsToZW bs.dropLast := by
  unfold bitsToZW
  exact (List.map_dropLast _ bs).symm

theorem extract_frame_dropLast (e : Engine) (content blk : List Char)
    (h256 : ∀ c ∈ blk, c.toNat < 256) (hne : blk ≠ []) :
    extract e ((content ++ HEADER :: bitsToZW (strToBin blk)).dropLast) =
      { isValid := false, error := some "Corrupted or invalid signature bits" } := by
  have hlen : (strToBin blk).length = 8 * blk.length := strToBin_length blk h256
  have hblkpos : 0 < blk.length := List.length_pos.mpr hne
  have hbsne : strToBin blk ≠ [] := by
    intro h0
    rw [h0] at hlen
    simp only [List.length_nil] at hlen
    omega
  have hzwne : bitsToZW (strToBin blk) ≠ [] := by
    intro h0
    unfold bitsToZW at h0
    exact hbsne (List.map_eq_nil_iff.mp h0)
  have hstep : (content ++ HEADER :: bitsToZW (strToBin blk)).dropLast =
      content ++ HEADER :: (bitsToZW (strToBin blk)).dropLast := by
    have h1 : content ++ HEADER :: bitsToZW (strToBin blk) =
        (content ++ [HEADER]) ++ bitsToZW (strToBin blk) := by simp
    rw [h1, List.dropLast_append_of_ne_nil _ hzwne]
    simp
  rw [hstep, bitsToZW_dropLast,
    extract_append_frame e content _ (header_not_mem_bitsToZW _)]
  have hbits : ∀ x ∈ (strToBin blk).dropLast, x = '0' ∨ x = '1' :=
    fun x hx => strToBin_bits blk x (List.dropLast_subset _ hx)
  have hmod : ((strToBin blk).dropLast).length % 8 ≠ 0 := by
    rw [List.length_dropLast, hlen]
    omega
  have hdec : decodeBits (bitsToZW (strToBin blk).dropLast) = some [] := by
    unfold decodeBits
    rw [zwToBits_bitsToZW _ hbits, Option.map_some']
    unfold binToStr
    rw [if_pos hmod]
  exact extractTail_some_nil e _ hdec

/-- C8: removing the last character of stego-signed content truncates the
bit run to length 8·L − 1, no longer a multiple of 8, so extract returns an
invalid result (bit decoding also fails on any non-alphabet character in
the tail, which `decodeBits` rejects with null). -/
theorem extract_dropLast_sign (e : Engine) (iv ts : Nat) (content : List Char)
    (payload : JsObj) (hmode : e.mode = .steganography ∨ e.mode = .dual)
    (h256 : ∀ c ∈ encryptBlock e iv (e.ops.stringify (objSet payload "t" (.num ts))),
      c.toNat < 256) :
    extract e ((sign e iv ts content payload).content).dropLast =
      { isValid := false, error := some "Corrupted or invalid signature bits" } := by
  rw [sign_content_stego e iv ts content payload hmode]
  obtain ⟨c0, cs0, hcons⟩ :=
    encryptBlock_cons e iv (e.ops.stringify (objSet payload "t" (.num ts)))
  exact extract_frame_dropLast e content _ h256
    (by rw [hcons]; exact List.cons_ne_nil c0 cs0)

/-- Witness for C8 at a concrete engine, content, and payload. -/
theorem extract_dropLast_sign_witness :
    extract engC1 ((sign engC1 0 7 "Hi".data [("u", JsonVal.num 1)]).content).dropLast =
      { isValid := false, error := some "Corrupted or invalid signature bits" } :=
  extract_dropLast_sign engC1 0 7 "Hi".data [("u", JsonVal.num 1)] (Or.inl rfl) (by decide)

/-- C9: signing already-signed content keeps only the most recent watermark
recoverable: extraction splits on the marker and decodes only the last
segment, which is the frame appended by the outer sign call, so the second
payload (with its timestamp) is returned. -/
theorem extract_resign (e : Engine) (iv1 ts1 iv2 ts2 : Nat) (content : List Char)
    (p1 p2 : JsObj) (hmode : e.mode = .steganography ∨ e.mode = .dual)
    (h : RoundTripOK e iv2 (objSet p2 "t" (.num ts2))) :
    extract e ((sign e iv2 ts2 ((sign e iv1 ts1 content p1).content) p2).content) =
      { isValid := true, payload := some (objSet p2 "t" (.num ts2)),
        timestamp := some (.num ts2) } := by
  rw [sign_content_stego e iv2 ts2 _ p2 hmode,
    extract_append_frame e _ _ (header_not_mem_bitsToZW _),
    extractTail_of_roundtrip e iv2 _ h, objGet_objSet]

def dataC9 : JsObj := [("b", JsonVal.num 2), ("t", JsonVal.num 9)]

def engC9 : Engine := ⟨secret32, some Mode.dual, toyOps dataC9⟩

/-- Witness for C9: double signing at a concrete engine recovers the second
payload with the second timestamp. -/
theorem extract_resign_witness :
    extract engC9 ((sign engC9 1 9
        ((sign engC9 0 5 "Doc".data [("a", JsonVal.num 1)]).content)
        [("b", JsonVal.num 2)]).content) =
      { isValid := true, payload := some dataC9, timestamp := some (JsonVal.num 9) } :=
  extract_resign engC9 0 5 1 9 "Doc".data [("a", JsonVal.num 1)] [("b", JsonVal.num 2)]
    (Or.inr rfl) (toyOps_roundtrip dataC9 secret32 (some Mode.dual) 1)

/-- C10: when the caller payload already contains a key t, sign overwrites
it in place (the recovered object has the same number of keys) with the
sign-time timestamp, so extraction always returns the server-assigned t,
never the caller-supplied value. -/
theorem sign_overwrites_t (e : Engine) (iv ts : Nat) (content : List Char)
    (payload : JsObj) (v : JsonVal) (hv : objGet payload "t" = some v)
    (hmode : e.mode = .steganography ∨ e.mode = .dual)
    (h : RoundTripOK e iv (objSet payload "t" (.num ts))) :
    (extract e ((sign e iv ts content payload).content)).payload =
      some (objSet payload "t" (.num ts)) ∧
    objGet (objSet payload "t" (.num ts)) "t" = some (.num ts) ∧
    (objSet payload "t" (.num ts)).length = payload.length := by
  refine ⟨?_, objGet_objSet payload "t" (.num ts),
    objSet_length_of_mem payload "t" (.num ts) (by rw [hv]; rfl)⟩
  rw [sign_content_stego e iv ts content payload hmode,
    extract_append_frame e _ _ (header_not_mem_bitsToZW _),
    extractTail_of_roundtrip e iv _ h]

def dataC10 : JsObj := [("t", JsonVal.num 7)]

def engC10 : Engine := ⟨secret32, some Mode.dual, toyOps dataC10⟩

/-- Witness for C10: a payload whose caller-supplied t is 1 signs at
timestamp 7 and the recovered t is 7. -/
theorem sign_overwrites_t_witness :
    (extract engC10 ((sign engC10 0 7 "Hi".data [("t", JsonVal.num 1)]).content)).payload =
      some dataC10 ∧ objGet dataC10 "t" = some (JsonVal.num 7) := by
  have h := sign_overwrites_t engC10 0 7 "Hi".data [("t", JsonVal.num 1)] (JsonVal.num 1)
    rfl (Or.inr rfl) (toyOps_roundtrip dataC10 secret32 (some Mode.dual) 0)
  exact ⟨h.1, h.2.1⟩
